import Mathlib

set_option autoImplicit false

/-!
Shallow embedding of the statistical core of the UQpy repository:
the Grassmannian kernel-matrix utility, the bootstrap machinery of the
sensitivity baseclass, and the Monte Carlo sampler.  Numeric arrays are
modelled over the rationals; external numeric routines (numpy sqrt,
scipy.stats.norm.ppf, the pseudo-random source) are explicit parameters.
-/

namespace UQpy

/-! Embedding of UQpy.utilities.kernels.baseclass.GrassmannianKernel
(calculate_kernel_matrix). -/

/-- The coordinate block of a point on the Grassmann manifold: a 2-D numeric
array stored as a list of rows. -/
abbrev GrassmannPoint : Type := List (List ℚ)

/-- The slicing expression points[i].data[:, :p] of the source keeps the first
p columns of every row. -/
def truncateColumns (p : ℕ) (pt : GrassmannPoint) : GrassmannPoint :=
  pt.map (fun row => row.take p)

/-- Python truthiness of the optional truncation rank in the test `if not p:`
of the source: both None and 0 are falsy. -/
def rankIsFalsy : Option ℕ → Bool
  | none => true
  | some 0 => true
  | some (_ + 1) => false

/-- Point preprocessing inside the pair loop of calculate_kernel_matrix: when
`not p` holds the point is used as-is, otherwise it is truncated to its first
p columns. -/
def preparePoint (points : List GrassmannPoint) (p : Option ℕ) (i : ℕ) : GrassmannPoint :=
  if rankIsFalsy p then points.getD i default
  else truncateColumns (p.getD 0) (points.getD i default)

/-- itertools.combinations_with_replacement(range n, 2): all pairs (i, j) with
i ≤ j < n, in lexicographic order. -/
def pairsWithReplacement (n : ℕ) : List (ℕ × ℕ) :=
  (List.range n).flatMap (fun i => (List.range' i (n - i)).map (fun j => (i, j)))

/-- The numpy assignment kernel[i, j] = v on an (unbounded) matrix. -/
def matrixSet (M : ℕ → ℕ → ℚ) (i j : ℕ) (v : ℚ) : ℕ → ℕ → ℚ :=
  fun a b => if a = i ∧ b = j then v else M a b

/-- The body of the pair loop: kernel[i, j] = entry(i, j) followed by
kernel[j, i] = kernel[i, j]. -/
def writePair (entry : ℕ → ℕ → ℚ) (M : ℕ → ℕ → ℚ) (ij : ℕ × ℕ) : ℕ → ℕ → ℚ :=
  matrixSet (matrixSet M ij.1 ij.2 (entry ij.1 ij.2)) ij.2 ij.1 (entry ij.1 ij.2)

/-- The kernel entry computed for the pair (i, j) after point preprocessing;
kernel_entry itself is the pluggable scoring capability. -/
def pairEntry (kernel_entry : GrassmannPoint → GrassmannPoint → ℚ)
    (points : List GrassmannPoint) (p : Option ℕ) (i j : ℕ) : ℚ :=
  kernel_entry (preparePoint points p i) (preparePoint points p j)

/-- GrassmannianKernel.calculate_kernel_matrix: starting from np.zeros, fill
the matrix over all combinations-with-replacement pairs. -/
def calculate_kernel_matrix (kernel_entry : GrassmannPoint → GrassmannPoint → ℚ)
    (points : List GrassmannPoint) (p : Option ℕ) : ℕ → ℕ → ℚ :=
  (pairsWithReplacement points.length).foldl
    (writePair (pairEntry kernel_entry points p)) (fun _ _ => 0)

/-! Embedding of UQpy.sensitivity.baseclass.sensitivity (the Sensitivity
class): bootstrap resample generators, generator dispatch, and the
confidence-interval stage of bootstrapping. -/

/-- NumPy advanced indexing samples[:, I, J] on a 3-D array with two integer
index arrays already broadcast to a common (n, m) shape:
result[k, r, c] = samples[k, I[r, c], J[r, c]]. -/
def fancyIndex3D (samples : ℕ → ℕ → ℕ → ℚ) (idx cols : ℕ → ℕ → ℕ) : ℕ → ℕ → ℕ → ℚ :=
  fun k r c => samples k (idx r c) (cols r c)

/-- Broadcasting a shape-(m,) integer array against a shape-(n, m) array:
the vector is repeated along the new leading axis. -/
def broadcastRows (v : List ℕ) : ℕ → ℕ → ℕ :=
  fun _ c => v.getD c 0

/-- Sensitivity.bootstrap_sample_generator_3D: the b-th advance of the
generator consumes the b-th (n, m) index array drawn by np.random.randint
(modelled as the stream indexDraws) and yields samples[:, _indices, cols]
with cols = np.arange(num_cols).  m is samples.shape[2]. -/
def bootstrap_sample_generator_3D (samples : ℕ → ℕ → ℕ → ℚ) (m : ℕ)
    (indexDraws : ℕ → ℕ → ℕ → ℕ) (b : ℕ) : ℕ → ℕ → ℕ → ℚ :=
  fancyIndex3D samples (indexDraws b) (broadcastRows (List.range m))

/-- An element of the estimator_inputs list of Sensitivity.bootstrapping:
an ndarray (described by its shape), the sentinel None, or any other value. -/
inductive EstimatorInput where
  | array : List ℕ → EstimatorInput
  | nonePy : EstimatorInput
  | other : EstimatorInput
deriving DecidableEq

/-- What the generator-dispatch loop of bootstrapping appends to
input_generators for one element. -/
inductive InputGenerator where
  | gen1D : InputGenerator
  | gen2D : InputGenerator
  | gen3D : InputGenerator
  | passthrough : InputGenerator
deriving DecidableEq

/-- The errors the dispatch loop of bootstrapping can raise. -/
inductive BootstrapError where
  | valueError : ℕ → BootstrapError
deriving DecidableEq

/-- The generator-dispatch loop of Sensitivity.bootstrapping, position i
onward: a 2-D array with one column gets the 1-D generator, a 2-D array with
more columns the 2-D generator, a 3-D array the 3-D generator; an ndarray
matching none of those tests is passed over without appending anything and
without raising; None is stored verbatim; any other element raises ValueError
naming its position. -/
def create_input_generators : List EstimatorInput → ℕ →
    Except BootstrapError (List InputGenerator)
  | [], _ => .ok []
  | .array shape :: rest, i =>
    if shape.length = 2 ∧ shape.getD 1 0 = 1 then
      (create_input_generators rest (i + 1)).map (fun t => .gen1D :: t)
    else if shape.length = 2 ∧ 1 < shape.getD 1 0 then
      (create_input_generators rest (i + 1)).map (fun t => .gen2D :: t)
    else if shape.length = 3 then
      (create_input_generators rest (i + 1)).map (fun t => .gen3D :: t)
    else
      create_input_generators rest (i + 1)
  | .nonePy :: rest, i =>
    (create_input_generators rest (i + 1)).map (fun t => .passthrough :: t)
  | .other :: _, i => .error (.valueError i)

/-- np.std with ddof=1 along an axis, applied to one fibre: the square root of
the sum of squared deviations from the mean divided by (length - 1).  numpy's
square root is the external collaborator sqrt. -/
def sampleStd (sqrt : ℚ → ℚ) (l : List ℚ) : ℚ :=
  sqrt ((l.map (fun x => (x - l.sum / (l.length : ℚ)) ^ 2)).sum / ((l.length : ℚ) - 1))

/-- The half-width multiplier of bootstrapping:
delta = -scipy.stats.norm.ppf((1 - confidence_level) / 2), with ppf the
external standard-normal inverse CDF. -/
def deltaOf (ppf : ℚ → ℚ) (confidence_level : ℚ) : ℚ :=
  -(ppf ((1 - confidence_level) / 2))

/-- The accumulator bootstrapped_qoi of bootstrapping: iteration b stores the
transposed estimator result, so fibre (output_j, q) along the bootstrap axis
is the list of results[b] q output_j for b < num_bootstrap_samples, where
results b is the (n_qois, n_outputs) estimator output of iteration b. -/
def bootstrapped_qoi (num_bootstrap_samples : ℕ) (results : ℕ → ℕ → ℕ → ℚ)
    (output_j q : ℕ) : List ℚ :=
  (List.range num_bootstrap_samples).map (fun b => results b q output_j)

/-- The confidence-interval stage of Sensitivity.bootstrapping: per output
channel and qoi, bounds = qoi_mean ∓/± delta × std across the bootstrap axis
(index 0 the lower bound, index 1 the upper bound). -/
def confidence_interval_qoi (sqrt ppf : ℚ → ℚ) (confidence_level : ℚ)
    (qoi_mean : ℕ → ℕ → ℚ) (num_bootstrap_samples : ℕ) (results : ℕ → ℕ → ℕ → ℚ)
    (output_j q bound : ℕ) : ℚ :=
  if bound = 0 then
    qoi_mean q output_j - deltaOf ppf confidence_level *
      sampleStd sqrt (bootstrapped_qoi num_bootstrap_samples results output_j q)
  else
    qoi_mean q output_j + deltaOf ppf confidence_level *
      sampleStd sqrt (bootstrapped_qoi num_bootstrap_samples results output_j q)

/-! Embedding of UQpy.sampling.MonteCarloSampling.  The numpy RandomState
is modelled by an abstract state type σ threaded through every rvs call
(all distributions of a list share the one mutable self.random_state, so the
draws of distribution k+1 start from the state left by distribution k). -/

/-- A single-variable continuous distribution collaborator: rvs (absent when
the object has no rvs attribute) returns the requested draws and the advanced
random state; cdf is the unit-hypercube transform capability. -/
structure Distribution1D (σ : Type) where
  rvs : Option (ℕ → σ → List ℚ × σ)
  cdf : Option (ℚ → ℚ)

/-- A single (possibly multi-dimensional) distribution collaborator: rvs
returns a (count, dim) array of rows and the advanced random state. -/
structure DistributionM (σ : Type) where
  rvs : Option (ℕ → σ → List (List ℚ) × σ)
  cdf : Option (List ℚ → List ℚ)

/-- The dist_object of a MonteCarloSampling object: a single distribution, or
a list in which every element is single-variable (the all-1-D list case, where
the array flag of _process_distributions is set). -/
inductive DistObject (σ : Type) where
  | single : DistributionM σ → DistObject σ
  | list1d : List (Distribution1D σ) → DistObject σ

/-- The value of the samples attribute: a rectangular array of rows, or the
0-d object array np.array(None) produced by converting a missing x. -/
inductive SamplesVal where
  | rows : List (List ℚ) → SamplesVal
  | array0d : SamplesVal
deriving DecidableEq

/-- The mutable state of a MonteCarloSampling object. -/
structure MCSState (σ : Type) where
  dist_object : DistObject σ
  random_state : σ
  x : Option (List (List ℚ))
  samples : Option SamplesVal
  samples_number : Option ℕ

/-- The errors a run call can surface. -/
inductive MCSError where
  | beartypeViolation : MCSError
  | valueErrorRvsMissing : MCSError
  | typeErrorLen : MCSError
deriving DecidableEq

/-- Modelled from the spec: the PositiveInteger beartype annotation on the
samples_number argument of run lives in UQpy.utilities.ValidationTypes, which
is not part of the sources here; the spec states that the count "must be a
positive integer — reject zero/negative", the rejection happening before the
method body executes. -/
def positiveIntegerCheck (n : ℤ) : Bool :=
  decide (0 < n)

/-- The sampling loop of run over a distribution list: each element must have
an rvs attribute, otherwise ValueError is raised at that point; draws are taken
sequentially, threading the shared random state.  On error the state consumed
so far is returned. -/
def rvsLoop {σ : Type} (n : ℕ) : List (Distribution1D σ) → σ →
    Except σ (List (List ℚ) × σ)
  | [], s => .ok ([], s)
  | d :: ds, s =>
    match d.rvs with
    | some f =>
      match rvsLoop n ds (f n s).2 with
      | .ok (rest, sEnd) => .ok ((f n s).1 :: rest, sEnd)
      | .error sErr => .error sErr
    | none => .error s

/-- The assembly and bookkeeping tail of run: convert x into the samples
array (stacking below any existing rows), then set samples_number to
len(self.samples).  When x is still None, np.array(None) is stored and the
subsequent len call raises TypeError; when existing rows would be stacked with
None, np.vstack raises (unreachable in normal use, since samples is only ever
set together with x). -/
def assembleSamples {σ : Type} (st : MCSState σ) : MCSState σ × Option MCSError :=
  match st.samples, st.x with
  | none, some xs =>
    ({ st with samples := some (.rows xs), samples_number := some xs.length }, none)
  | none, none =>
    ({ st with samples := some .array0d }, some .typeErrorLen)
  | some (.rows old), some xs =>
    ({ st with samples := some (.rows (old ++ xs)), samples_number := some (old ++ xs).length }, none)
  | some (.rows old), none =>
    ({ st with samples := some (.rows old) }, some .typeErrorLen)
  | some .array0d, _ => (st, some .typeErrorLen)

/-- Line 148 of the source: a provided random_state replaces the stored one,
otherwise the stored one is kept. -/
def reseed {σ : Type} (st : MCSState σ) (random_state : Option σ) : MCSState σ :=
  { st with random_state := random_state.getD st.random_state }

/-- Records a finished sampling stage on the object: x receives the draws and
the shared random state is left advanced. -/
def withDraw {σ : Type} (st : MCSState σ) (draw : List (List ℚ) × σ) : MCSState σ :=
  { st with random_state := draw.2, x := some draw.1 }

/-- The assembly self.x of the distribution-list branch: realization j is the
vector of the j-th draw of every distribution (the hstack/transpose step then
reproduces exactly these rows). -/
def listX (temps : List (List ℚ)) (n : ℕ) : List (List ℚ) :=
  (List.range n).map (fun j => temps.map (fun t => t.getD j 0))

/-- MonteCarloSampling.run: the beartype guard on the count, the optional
reseed, the per-branch sampling stage (list loop with its ValueError on a
missing rvs; single-distribution branch whose hasattr test has no else, so a
missing rvs silently leaves x unchanged), and the assembly tail.  Returns the
final object state together with the raised error, if any. -/
def MonteCarloSampling_run {σ : Type} (st : MCSState σ) (samples_number : ℤ)
    (random_state : Option σ) : MCSState σ × Option MCSError :=
  if positiveIntegerCheck samples_number = false then (st, some .beartypeViolation)
  else
    match st.dist_object with
    | .list1d ds =>
      match rvsLoop samples_number.toNat ds (reseed st random_state).random_state with
      | .error sErr =>
        ({ reseed st random_state with random_state := sErr }, some .valueErrorRvsMissing)
      | .ok (temps, sEnd) =>
        assembleSamples (withDraw (reseed st random_state) (listX temps samples_number.toNat, sEnd))
    | .single d =>
      match d.rvs with
      | some f =>
        assembleSamples (withDraw (reseed st random_state)
          (f samples_number.toNat (reseed st random_state).random_state))
      | none => assembleSamples (reseed st random_state)

/-- The distribution object offers the sampling capability everywhere run will
ask for it (hasattr(…, 'rvs') holds for the single distribution, respectively
for every list element). -/
def hasRvsObject {σ : Type} : DistObject σ → Prop
  | .single d => d.rvs.isSome = true
  | .list1d ds => ∀ d ∈ ds, d.rvs.isSome = true

/-- The external contract that a distribution's rvs returns exactly the
requested number of rows (only the single-distribution branch needs it; the
list branch builds its rows itself). -/
def rvsCountOk {σ : Type} : DistObject σ → Prop
  | .single d => ∀ f, d.rvs = some f → ∀ n s, ((f n s).1).length = n
  | .list1d _ => True

/-! Concrete collaborator instances used to exercise the embedding on
explicit inputs. -/

/-- A concrete 3-D array: entry (k, r, c) = 100 k + 10 r + c. -/
def c3Samp : ℕ → ℕ → ℕ → ℚ := fun k r c => (k * 100 + r * 10 + c : ℕ)

/-- A concrete stream of index draws. -/
def c3Draw : ℕ → ℕ → ℕ → ℕ := fun b r c => (b + 2 * r + c) % 4

/-- A concrete stand-in for numpy's square root (only its value at 0 matters
for the zero-deviation interval collapse). -/
def c1SqrtW : ℚ → ℚ := fun x => x

/-- A concrete stand-in for the standard-normal inverse CDF. -/
def c1PpfW : ℚ → ℚ := fun _ => -2

/-- A concrete qoi_mean array. -/
def c1MeanW : ℕ → ℕ → ℚ := fun q j => (q : ℚ) + (j : ℚ) + 5

/-- Concrete estimator results that are identical across bootstrap
iterations. -/
def c1ResW : ℕ → ℕ → ℕ → ℚ := fun _ _ _ => 7

/-- A concrete kernel-entry scoring capability. -/
def c9Entry : GrassmannPoint → GrassmannPoint → ℚ :=
  fun a b => (a.getD 0 []).getD 0 0 * (b.getD 0 []).getD 0 0 + (a.getD 0 []).getD 1 0 * (b.getD 0 []).getD 1 0

/-- Three concrete 1×2 Grassmann coordinate blocks. -/
def c9Points : List GrassmannPoint := [[[1, 2]], [[3, 4]], [[5, 6]]]

/-- A single-distribution collaborator whose rvs returns count rows drawn off
a counting stream (row i of a draw from state s is [s + i]). -/
def c4F : ℕ → ℕ → List (List ℚ) × ℕ := fun n s => ((List.range n).map (fun i => [((s + i : ℕ) : ℚ)]), s + n)

/-- A MonteCarloSampling object over the single counting distribution, fresh
(no samples yet), with seed state 0. -/
def c4State : MCSState ℕ := ⟨.single ⟨some c4F, none⟩, 0, none, none, none⟩

/-- A single-distribution collaborator with no rvs attribute. -/
def c6State : MCSState ℕ := ⟨.single ⟨none, none⟩, 0, none, none, none⟩

/-- A distribution list whose only element has no rvs attribute. -/
def c6ListState : MCSState ℕ := ⟨.list1d [⟨none, none⟩], 0, none, none, none⟩

/-- A 1-D counting distribution: a draw of n values from state s is
[s, s+1, ...], leaving the state advanced by n. -/
def c5F0 : ℕ → ℕ → List ℚ × ℕ := fun n s => ((List.range n).map (fun i => ((s + i : ℕ) : ℚ)), s + n)

/-- A second 1-D distribution, offset by 100, sharing the same state
advance. -/
def c5F1 : ℕ → ℕ → List ℚ × ℕ := fun n s => ((List.range n).map (fun i => ((100 + s + i : ℕ) : ℚ)), s + n)

/-- A fresh MonteCarloSampling object over the list [c5F0, c5F1] with seed
state 0. -/
def c5State : MCSState ℕ := ⟨.list1d [⟨some c5F0, none⟩, ⟨some c5F1, none⟩], 0, none, none, none⟩

/-- Reads entry (j, k) of the samples array of a sampler state. -/
def sampleEntry (st : MCSState ℕ) (j k : ℕ) : ℚ :=
  match st.samples with
  | some (.rows rows) => (rows.getD j []).getD k 0
  | _ => 0

/-! Theorems settling the claims. -/

/-- C10: calling calculate_kernel_matrix with truncation rank p = 0 does not
truncate at all: the falsiness test `if not p:` of the source treats 0 exactly
like the absent rank None, so the kernel matrix for p = 0 equals the one for
p = None, and truncation to the first p columns happens only for p ≥ 1. -/
theorem calculate_kernel_matrix_rank_zero (kernel_entry : GrassmannPoint → GrassmannPoint → ℚ)
    (points : List GrassmannPoint) :
    calculate_kernel_matrix kernel_entry points (some 0)
        = calculate_kernel_matrix kernel_entry points none ∧
    (∀ i, preparePoint points (some 0) i = points.getD i default) ∧
    (∀ k i, preparePoint points (some (k + 1)) i
        = truncateColumns (k + 1) (points.getD i default)) :=
  ⟨rfl, fun _ => rfl, fun _ _ => rfl⟩

/-- C3: each advance b of the 3-D bootstrap generator applies the b-th (n, m)
index draw identically across all d leading output slices: entry (k, r, c) of
the yielded array is samples[k, indexDraws b r c, c], so every column is
resampled with the same index draw in every slice. -/
theorem bootstrap_sample_generator_3D_entries (samples : ℕ → ℕ → ℕ → ℚ) (m : ℕ)
    (indexDraws : ℕ → ℕ → ℕ → ℕ) (b k r c : ℕ) (hc : c < m) :
    bootstrap_sample_generator_3D samples m indexDraws b k r c
      = samples k (indexDraws b r c) c := by
  unfold bootstrap_sample_generator_3D fancyIndex3D broadcastRows
  rw [show (List.range m).getD c 0 = c from by
    simp [List.getD_eq_getElem?_getD, List.getElem?_range hc]]

/-- Witness for the 3-D generator theorem at concrete inputs. -/
theorem bootstrap_sample_generator_3D_entries_witness :
    2 < 3 ∧ bootstrap_sample_generator_3D c3Samp 3 c3Draw 1 2 1 2 = c3Samp 2 (c3Draw 1 1 2) 2 :=
  ⟨by decide, bootstrap_sample_generator_3D_entries c3Samp 3 c3Draw 1 2 1 2 (by decide)⟩

/-- C2 (code divergence): the generator-dispatch loop of bootstrapping does
not raise for an ndarray of rank 4, nor for one of rank 1: such inputs are
silently passed over and no generator is appended, so the loop reaches the
resampling stage with fewer generators than inputs; only a non-ndarray,
non-None element raises the positional ValueError. -/
theorem create_input_generators_rank4_silent :
    create_input_generators [.array [2, 2, 2, 2]] 0 = .ok [] ∧
    create_input_generators [.array [7]] 0 = .ok [] ∧
    create_input_generators [.array [5, 1], .array [2, 2, 2, 2], .nonePy] 0
        = .ok [.gen1D, .passthrough] ∧
    create_input_generators [.nonePy, .other] 0 = .error (.valueError 1) :=
  ⟨rfl, rfl, rfl, rfl⟩

/-- A list whose entries are all equal has Bessel-corrected sample standard
deviation 0 (given that the external square root sends 0 to 0). -/
lemma sampleStd_const (sqrt : ℚ → ℚ) (hsqrt : sqrt 0 = 0) (c : ℚ) :
    ∀ l : List ℚ, (∀ x ∈ l, x = c) → sampleStd sqrt l = 0 := by
  intro l hl
  rcases l with _ | ⟨a, t⟩
  · simp [sampleStd, hsqrt]
  · have hlen : ((a :: t).length : ℚ) ≠ 0 := by
      exact_mod_cast Nat.cast_ne_zero.mpr (List.length_pos.mpr (List.cons_ne_nil a t)).ne'
    have hmean : (a :: t).sum / ((a :: t).length : ℚ) = c := by
      rw [List.sum_eq_card_nsmul (a :: t) c hl, nsmul_eq_mul, mul_comm, mul_div_assoc,
        div_self hlen, mul_one]
    have hdev : ((a :: t).map (fun x => (x - (a :: t).sum / (((a :: t).length : ℕ) : ℚ)) ^ 2)).sum = 0 := by
      apply List.sum_eq_zero
      intro y hy
      rcases List.mem_map.mp hy with ⟨x, hx, rfl⟩
      rw [hmean, hl x hx]
      ring
    unfold sampleStd
    rw [hdev, zero_div, hsqrt]

/-- C1: the interval returned by the confidence-interval stage of
Sensitivity.bootstrapping is [qoi_mean - delta·std, qoi_mean + delta·std] per
output channel and qoi, with std the Bessel-corrected sample standard
deviation across the bootstrap axis and delta = -Φ⁻¹((1 - confidence_level)/2);
whenever that standard deviation is 0 both bounds equal qoi_mean exactly, and
it is 0 in particular when the bootstrapped results are identical across
iterations. -/
theorem bootstrapping_confidence_interval (sqrt ppf : ℚ → ℚ) (cl : ℚ)
    (qoi_mean : ℕ → ℕ → ℚ) (B : ℕ) (results : ℕ → ℕ → ℕ → ℚ) (j q : ℕ) :
    confidence_interval_qoi sqrt ppf cl qoi_mean B results j q 0
      = qoi_mean q j - deltaOf ppf cl * sampleStd sqrt (bootstrapped_qoi B results j q) ∧
    confidence_interval_qoi sqrt ppf cl qoi_mean B results j q 1
      = qoi_mean q j + deltaOf ppf cl * sampleStd sqrt (bootstrapped_qoi B results j q) ∧
    deltaOf ppf cl = -(ppf ((1 - cl) / 2)) ∧
    (sampleStd sqrt (bootstrapped_qoi B results j q) = 0 →
      confidence_interval_qoi sqrt ppf cl qoi_mean B results j q 0 = qoi_mean q j ∧
      confidence_interval_qoi sqrt ppf cl qoi_mean B results j q 1 = qoi_mean q j) ∧
    (sqrt 0 = 0 → (∀ b, results b q j = results 0 q j) →
      sampleStd sqrt (bootstrapped_qoi B results j q) = 0) := by
  refine ⟨rfl, rfl, rfl, ?_, ?_⟩
  · intro hstd
    constructor <;> simp [confidence_interval_qoi, hstd]
  · intro hsqrt hconst
    apply sampleStd_const sqrt hsqrt (results 0 q j)
    intro x hx
    rcases List.mem_map.mp hx with ⟨b, _, rfl⟩
    exact hconst b

/-- Witness for the confidence-interval theorem: identical bootstrap results
give a zero standard deviation and an interval collapsing to qoi_mean. -/
theorem bootstrapping_confidence_interval_witness :
    sampleStd c1SqrtW (bootstrapped_qoi 3 c1ResW 0 0) = 0 ∧
    confidence_interval_qoi c1SqrtW c1PpfW (19 / 20) c1MeanW 3 c1ResW 0 0 0 = c1MeanW 0 0 ∧
    confidence_interval_qoi c1SqrtW c1PpfW (19 / 20) c1MeanW 3 c1ResW 0 0 1 = c1MeanW 0 0 :=
  ⟨(bootstrapping_confidence_interval c1SqrtW c1PpfW (19 / 20) c1MeanW 3 c1ResW 0 0).2.2.2.2
      rfl (fun _ => rfl),
   ((bootstrapping_confidence_interval c1SqrtW c1PpfW (19 / 20) c1MeanW 3 c1ResW 0 0).2.2.2.1
      (by norm_num [sampleStd, bootstrapped_qoi, c1ResW, c1SqrtW, List.range_succ])).1,
   ((bootstrapping_confidence_interval c1SqrtW c1PpfW (19 / 20) c1MeanW 3 c1ResW 0 0).2.2.2.1
      (by norm_num [sampleStd, bootstrapped_qoi, c1ResW, c1SqrtW, List.range_succ])).2⟩

/-- C6 (code divergence): a single distribution without an rvs attribute does
not make run raise at the point the capability would be invoked — the hasattr
test of the single-distribution branch has no else, so sampling is silently
skipped, x stays None, np.array(None) is stored into samples and the error
that finally surfaces is the unrelated TypeError of len() on that 0-d array;
only the distribution-list branch raises the intended ValueError. -/
theorem run_missing_rvs_divergence :
    (MonteCarloSampling_run c6State 3 none).2 = some .typeErrorLen ∧
    (MonteCarloSampling_run c6State 3 none).1.x = none ∧
    (MonteCarloSampling_run c6State 3 none).1.samples = some .array0d ∧
    (MonteCarloSampling_run c6ListState 3 none).2 = some .valueErrorRvsMissing :=
  ⟨rfl, rfl, rfl, rfl⟩

/-- C7: a non-positive count is rejected by the PositiveInteger annotation
before the body of run executes: the object state is returned unchanged and no
sampling happens. -/
theorem run_nonpositive_count_rejected {σ : Type} (st : MCSState σ) (n : ℤ)
    (rs : Option σ) (hn : n ≤ 0) :
    MonteCarloSampling_run st n rs = (st, some .beartypeViolation) := by
  unfold MonteCarloSampling_run
  rw [if_pos]
  unfold positiveIntegerCheck
  exact decide_eq_false (not_lt.mpr hn)

/-- Witness for the non-positive-count rejection at count 0. -/
theorem run_nonpositive_count_rejected_witness :
    MonteCarloSampling_run c4State 0 none = (c4State, some .beartypeViolation) :=
  run_nonpositive_count_rejected c4State 0 none (by decide)

/-- Assembly on a fresh object: x becomes the samples array and the counter is
set to its length. -/
lemma assembleSamples_fresh {σ : Type} (st : MCSState σ) (xs : List (List ℚ))
    (hx : st.x = some xs) (hs : st.samples = none) :
    assembleSamples st
      = ({ st with samples := some (.rows xs), samples_number := some xs.length }, none) := by
  unfold assembleSamples
  rw [hs, hx]

/-- Assembly on an object that already holds rows: the new draws are stacked
below and the counter is set to the combined length. -/
lemma assembleSamples_append {σ : Type} (st : MCSState σ) (xs old : List (List ℚ))
    (hx : st.x = some xs) (hs : st.samples = some (.rows old)) :
    assembleSamples st
      = ({ st with samples := some (.rows (old ++ xs)), samples_number := some (old ++ xs).length }, none) := by
  unfold assembleSamples
  rw [hs, hx]

/-- Whenever assembly succeeds, the stored counter equals the length of the
stored rows. -/
lemma assembleSamples_ok {σ : Type} (st st' : MCSState σ)
    (h : assembleSamples st = (st', none)) :
    ∃ rows, st'.samples = some (.rows rows) ∧ st'.samples_number = some rows.length := by
  rcases hs : st.samples with _ | sv
  · rcases hx : st.x with _ | xs
    · simp only [assembleSamples, hs, hx] at h
      simp [Prod.ext_iff] at h
    · rw [assembleSamples_fresh st xs hx hs, Prod.mk.injEq] at h
      obtain ⟨h1, -⟩ := h
      subst h1
      exact ⟨xs, rfl, rfl⟩
  · rcases sv with old | _
    · rcases hx : st.x with _ | xs
      · simp only [assembleSamples, hs, hx] at h
        simp [Prod.ext_iff] at h
      · rw [assembleSamples_append st xs old hx hs, Prod.mk.injEq] at h
        obtain ⟨h1, -⟩ := h
        subst h1
        exact ⟨old ++ xs, rfl, rfl⟩
    · simp only [assembleSamples, hs] at h
      simp [Prod.ext_iff] at h

/-- The sampling loop succeeds when every list element has the rvs capability,
and returns one draw per distribution. -/
lemma rvsLoop_isOk {σ : Type} (n : ℕ) :
    ∀ (ds : List (Distribution1D σ)) (s : σ), (∀ d ∈ ds, d.rvs.isSome = true) →
      ∃ temps sEnd, rvsLoop n ds s = .ok (temps, sEnd) ∧ temps.length = ds.length := by
  intro ds
  induction ds with
  | nil => exact fun s _ => ⟨[], s, rfl, rfl⟩
  | cons d t ih =>
    intro s hall
    obtain ⟨f, hf⟩ := Option.isSome_iff_exists.mp (hall d (List.mem_cons_self d t))
    obtain ⟨temps, sEnd, hok, hlen⟩ := ih (f n s).2 (fun d' hd' => hall d' (List.mem_cons_of_mem d hd'))
    refine ⟨(f n s).1 :: temps, sEnd, ?_, by simp [hlen]⟩
    simp only [rvsLoop, hf, hok]

/-- A successful run call draws exactly count new rows, appends them below any
existing rows (or installs them on a fresh object), reports no error, and
leaves the distribution object untouched. -/
lemma run_success {σ : Type} (st : MCSState σ) (n : ℤ) (rs : Option σ)
    (hn : 0 < n) (hrvs : hasRvsObject st.dist_object) (hcnt : rvsCountOk st.dist_object) :
    ∃ xs : List (List ℚ), xs.length = n.toNat ∧
      (st.samples = none →
        (MonteCarloSampling_run st n rs).2 = none ∧
        (MonteCarloSampling_run st n rs).1.samples = some (.rows xs)) ∧
      (∀ old, st.samples = some (.rows old) →
        (MonteCarloSampling_run st n rs).2 = none ∧
        (MonteCarloSampling_run st n rs).1.samples = some (.rows (old ++ xs))) ∧
      (MonteCarloSampling_run st n rs).1.dist_object = st.dist_object := by
  have hg : ¬ (positiveIntegerCheck n = false) := by
    unfold positiveIntegerCheck
    simp [decide_eq_true hn]
  rcases hobj : st.dist_object with d | ds
  · obtain ⟨f, hf⟩ := Option.isSome_iff_exists.mp (by rw [hobj] at hrvs; exact hrvs)
    have hrun : MonteCarloSampling_run st n rs
        = assembleSamples (withDraw (reseed st rs) (f n.toNat (reseed st rs).random_state)) := by
      simp only [MonteCarloSampling_run, if_neg hg, hobj, hf]
    refine ⟨(f n.toNat (reseed st rs).random_state).1, ?_, ?_, ?_, ?_⟩
    · rw [hobj] at hcnt
      exact hcnt f hf n.toNat (reseed st rs).random_state
    · intro hsamp
      rw [hrun, assembleSamples_fresh _ _ rfl (by simp [withDraw, reseed, hsamp])]
      exact ⟨rfl, rfl⟩
    · intro old hsamp
      rw [hrun, assembleSamples_append _ _ old rfl (by simp [withDraw, reseed, hsamp])]
      exact ⟨rfl, rfl⟩
    · rw [hrun]
      rcases hs2 : st.samples with _ | sv
      · rw [assembleSamples_fresh _ _ rfl (by simp [withDraw, reseed, hs2])]
        simp [withDraw, reseed, hobj]
      · rcases sv with old | _
        · rw [assembleSamples_append _ _ old rfl (by simp [withDraw, reseed, hs2])]
          simp [withDraw, reseed, hobj]
        · simp [assembleSamples, withDraw, reseed, hs2, hobj]
  · obtain ⟨temps, sEnd, hok, hlen⟩ :=
      rvsLoop_isOk n.toNat ds (reseed st rs).random_state (by rw [hobj] at hrvs; exact hrvs)
    have hrun : MonteCarloSampling_run st n rs
        = assembleSamples (withDraw (reseed st rs) (listX temps n.toNat, sEnd)) := by
      simp only [MonteCarloSampling_run, if_neg hg, hobj, hok]
    refine ⟨listX temps n.toNat, by simp [listX], ?_, ?_, ?_⟩
    · intro hsamp
      rw [hrun, assembleSamples_fresh _ _ rfl (by simp [withDraw, reseed, hsamp])]
      exact ⟨rfl, rfl⟩
    · intro old hsamp
      rw [hrun, assembleSamples_append _ _ old rfl (by simp [withDraw, reseed, hsamp])]
      exact ⟨rfl, rfl⟩
    · rw [hrun]
      rcases hs2 : st.samples with _ | sv
      · rw [assembleSamples_fresh _ _ rfl (by simp [withDraw, reseed, hs2])]
        simp [withDraw, reseed, hobj]
      · rcases sv with old | _
        · rw [assembleSamples_append _ _ old rfl (by simp [withDraw, reseed, hs2])]
          simp [withDraw, reseed, hobj]
        · simp [assembleSamples, withDraw, reseed, hs2, hobj]

/-- C8: after every successful run call the samples_number attribute equals
the length of the samples collection. -/
theorem run_samples_number_consistent {σ : Type} (st : MCSState σ) (n : ℤ)
    (rs : Option σ) (st' : MCSState σ)
    (h : MonteCarloSampling_run st n rs = (st', none)) :
    ∃ rows, st'.samples = some (.rows rows) ∧ st'.samples_number = some rows.length := by
  by_cases hg : positiveIntegerCheck n = false
  · simp only [MonteCarloSampling_run, if_pos hg] at h
    simp [Prod.ext_iff] at h
  · rcases hobj : st.dist_object with d | ds
    · rcases hf : d.rvs with _ | f
      · simp only [MonteCarloSampling_run, if_neg hg, hobj, hf] at h
        exact assembleSamples_ok _ _ h
      · simp only [MonteCarloSampling_run, if_neg hg, hobj, hf] at h
        exact assembleSamples_ok _ _ h
    · rcases hloop : rvsLoop n.toNat ds (reseed st rs).random_state with sErr | ⟨temps, sEnd⟩
      · simp only [MonteCarloSampling_run, if_neg hg, hobj, hloop] at h
        simp [Prod.ext_iff] at h
      · simp only [MonteCarloSampling_run, if_neg hg, hobj, hloop] at h
        exact assembleSamples_ok _ _ h

/-- Witness for the counter consistency after a concrete successful run. -/
theorem run_samples_number_consistent_witness :
    ∃ rows, (MonteCarloSampling_run c4State 2 none).1.samples = some (.rows rows) ∧
      (MonteCarloSampling_run c4State 2 none).1.samples_number = some rows.length :=
  run_samples_number_consistent c4State 2 none (MonteCarloSampling_run c4State 2 none).1
    (Prod.ext rfl (by decide))

/-- C4: running with count n1 and then count n2 ends with n1 + n2 rows whose
first n1 rows are exactly the rows a single call with count n1 from the same
state (same seed) produces; the second call only appends below them. -/
theorem run_append_prefix {σ : Type} (st : MCSState σ) (n1 n2 : ℤ)
    (h1 : 0 < n1) (h2 : 0 < n2) (hrvs : hasRvsObject st.dist_object)
    (hcnt : rvsCountOk st.dist_object) (hsamp : st.samples = none) :
    ∃ rows1 rows2,
      (MonteCarloSampling_run st n1 none).2 = none ∧
      (MonteCarloSampling_run st n1 none).1.samples = some (.rows rows1) ∧
      rows1.length = n1.toNat ∧
      (MonteCarloSampling_run (MonteCarloSampling_run st n1 none).1 n2 none).2 = none ∧
      (MonteCarloSampling_run (MonteCarloSampling_run st n1 none).1 n2 none).1.samples
        = some (.rows (rows1 ++ rows2)) ∧
      rows2.length = n2.toNat ∧
      (rows1 ++ rows2).length = n1.toNat + n2.toNat ∧
      (rows1 ++ rows2).take n1.toNat = rows1 := by
  obtain ⟨xs1, hlen1, hfresh1, _, hdist1⟩ := run_success st n1 none h1 hrvs hcnt
  obtain ⟨h1err, h1samp⟩ := hfresh1 hsamp
  obtain ⟨xs2, hlen2, _, happ2, _⟩ :=
    run_success (MonteCarloSampling_run st n1 none).1 n2 none h2
      (by rw [hdist1]; exact hrvs) (by rw [hdist1]; exact hcnt)
  obtain ⟨h2err, h2samp⟩ := happ2 xs1 h1samp
  refine ⟨xs1, xs2, h1err, h1samp, hlen1, h2err, h2samp, hlen2, by simp [hlen1, hlen2], ?_⟩
  rw [← hlen1]
  exact List.take_left xs1 xs2

/-- Witness for the append/prefix theorem on the concrete counting sampler. -/
theorem run_append_prefix_witness :
    ∃ rows1 rows2,
      (MonteCarloSampling_run c4State 2 none).2 = none ∧
      (MonteCarloSampling_run c4State 2 none).1.samples = some (.rows rows1) ∧
      rows1.length = (2 : ℤ).toNat ∧
      (MonteCarloSampling_run (MonteCarloSampling_run c4State 2 none).1 3 none).2 = none ∧
      (MonteCarloSampling_run (MonteCarloSampling_run c4State 2 none).1 3 none).1.samples
        = some (.rows (rows1 ++ rows2)) ∧
      rows2.length = (3 : ℤ).toNat ∧
      (rows1 ++ rows2).length = (2 : ℤ).toNat + (3 : ℤ).toNat ∧
      (rows1 ++ rows2).take (2 : ℤ).toNat = rows1 :=
  run_append_prefix c4State 2 3 (by decide) (by decide) rfl
    (fun f hf n s => by rw [← Option.some.inj hf]; simp [c4F]) rfl

/-- Unfolding one step of the sampling loop: the head distribution draws
first, from the incoming state, and the tail draws from the advanced state. -/
lemma rvsLoop_cons {σ : Type} (n : ℕ) (d : Distribution1D σ) (ds : List (Distribution1D σ))
    (s : σ) (temps : List (List ℚ)) (sEnd : σ) (f : ℕ → σ → List ℚ × σ)
    (hf : d.rvs = some f) (h : rvsLoop n (d :: ds) s = .ok (temps, sEnd)) :
    ∃ rest sE2, temps = (f n s).1 :: rest ∧ rvsLoop n ds (f n s).2 = .ok (rest, sE2) := by
  rcases hrec : rvsLoop n ds (f n s).2 with sErr | ⟨rest, sE2⟩
  · simp only [rvsLoop, hf, hrec] at h
    exact Except.noConfusion h
  · simp only [rvsLoop, hf, hrec, Except.ok.injEq, Prod.mk.injEq] at h
    exact ⟨rest, sE2, h.1.symm, rfl⟩

/-- A successful sampling loop returns one draw per distribution. -/
lemma rvsLoop_ok_length {σ : Type} (n : ℕ) :
    ∀ (ds : List (Distribution1D σ)) (s : σ) (temps : List (List ℚ)) (sEnd : σ),
      rvsLoop n ds s = .ok (temps, sEnd) → temps.length = ds.length := by
  intro ds
  induction ds with
  | nil =>
    intro s temps sEnd h
    simp only [rvsLoop, Except.ok.injEq, Prod.mk.injEq] at h
    rw [← h.1]
    rfl
  | cons d t ih =>
    intro s temps sEnd h
    rcases hf : d.rvs with _ | f
    · simp only [rvsLoop, hf] at h
      exact Except.noConfusion h
    · obtain ⟨rest, sE2, htemps, hrec⟩ := rvsLoop_cons n d t s temps sEnd f hf h
      rw [htemps]
      simp [ih (f n s).2 rest sE2 hrec]

/-- C5 (amended): on a list of single-variable distributions, run assembles a
(count, num_distributions) array whose column k holds distribution k's draws
of this run; column 0 coincides with standalone sampling of distribution 0
with the same seed, while column 1 holds distribution 1's draws taken from the
shared random state as already advanced past distribution 0's draws (not a
fresh same-seed draw of distribution 1). -/
theorem run_list1d_columns {σ : Type} (st : MCSState σ) (ds : List (Distribution1D σ))
    (hdist : st.dist_object = .list1d ds) (hsamp : st.samples = none)
    (n : ℤ) (hn : 0 < n) (temps : List (List ℚ)) (sEnd : σ)
    (hloop : rvsLoop n.toNat ds st.random_state = .ok (temps, sEnd)) :
    (MonteCarloSampling_run st n none).2 = none ∧
    (MonteCarloSampling_run st n none).1.samples = some (.rows (listX temps n.toNat)) ∧
    (listX temps n.toNat).length = n.toNat ∧
    (∀ row ∈ listX temps n.toNat, row.length = ds.length) ∧
    (∀ j k, j < n.toNat →
      ((listX temps n.toNat).getD j []).getD k 0 = (temps.getD k []).getD j 0) ∧
    (∀ d0 rest f0, ds = d0 :: rest → d0.rvs = some f0 → ∀ j, j < n.toNat →
      ((listX temps n.toNat).getD j []).getD 0 0
        = ((f0 n.toNat st.random_state).1).getD j 0) ∧
    (∀ d0 d1 rest f0 f1, ds = d0 :: d1 :: rest → d0.rvs = some f0 → d1.rvs = some f1 →
      ∀ j, j < n.toNat →
      ((listX temps n.toNat).getD j []).getD 1 0
        = ((f1 n.toNat (f0 n.toNat st.random_state).2).1).getD j 0) := by
  have hg : ¬ (positiveIntegerCheck n = false) := by
    unfold positiveIntegerCheck
    simp [decide_eq_true hn]
  have hrs : (reseed st (none : Option σ)).random_state = st.random_state := rfl
  have hrun : MonteCarloSampling_run st n none
      = assembleSamples (withDraw (reseed st none) (listX temps n.toNat, sEnd)) := by
    simp only [MonteCarloSampling_run, if_neg hg, hdist, hrs, hloop]
  have hentry : ∀ j k, j < n.toNat →
      ((listX temps n.toNat).getD j []).getD k 0 = (temps.getD k []).getD j 0 := by
    intro j k hj
    have hrow : (listX temps n.toNat).getD j [] = temps.map (fun t => t.getD j 0) := by
      simp [listX, List.getD_eq_getElem?_getD, List.getElem?_map, List.getElem?_range hj]
    rw [hrow]
    rcases Nat.lt_or_ge k temps.length with hk | hk
    · simp [List.getD_eq_getElem?_getD, List.getElem?_map, List.getElem?_eq_getElem hk]
    · have h1 : (temps.map (fun t => t.getD j 0))[k]? = none := by
        rw [List.getElem?_eq_none_iff]
        simpa using hk
      have h2 : temps[k]? = none := by
        rw [List.getElem?_eq_none_iff]
        exact hk
      simp [List.getD_eq_getElem?_getD, h1, h2]
  refine ⟨?_, ?_, by simp [listX], ?_, hentry, ?_, ?_⟩
  · rw [hrun, assembleSamples_fresh _ _ rfl (by simp [withDraw, reseed, hsamp])]
  · rw [hrun, assembleSamples_fresh _ _ rfl (by simp [withDraw, reseed, hsamp])]
  · intro row hrow
    obtain ⟨j, -, rfl⟩ := List.mem_map.mp hrow
    simp [rvsLoop_ok_length n.toNat ds st.random_state temps sEnd hloop]
  · intro d0 rest f0 hds hf0 j hj
    subst hds
    obtain ⟨rest', sE2, htemps, -⟩ :=
      rvsLoop_cons n.toNat d0 rest st.random_state temps sEnd f0 hf0 hloop
    rw [hentry j 0 hj, htemps]
    rfl
  · intro d0 d1 rest f0 f1 hds hf0 hf1 j hj
    subst hds
    obtain ⟨rest', sE2, htemps, hrec⟩ :=
      rvsLoop_cons n.toNat d0 (d1 :: rest) st.random_state temps sEnd f0 hf0 hloop
    obtain ⟨rest'', sE3, htemps', -⟩ :=
      rvsLoop_cons n.toNat d1 rest (f0 n.toNat st.random_state).2 rest' sE2 f1 hf1 hrec
    rw [hentry j 1 hj, htemps, htemps']
    rfl

/-- Witness for the amended column theorem on two concrete counting
distributions. -/
theorem run_list1d_columns_witness :
    (MonteCarloSampling_run c5State 5 none).2 = none ∧
    (MonteCarloSampling_run c5State 5 none).1.samples
      = some (.rows (listX [(c5F0 5 0).1, (c5F1 5 5).1] (5 : ℤ).toNat)) ∧
    (listX [(c5F0 5 0).1, (c5F1 5 5).1] (5 : ℤ).toNat).length = (5 : ℤ).toNat ∧
    (∀ row ∈ listX [(c5F0 5 0).1, (c5F1 5 5).1] (5 : ℤ).toNat,
      row.length = [(⟨some c5F0, none⟩ : Distribution1D ℕ), ⟨some c5F1, none⟩].length) ∧
    (∀ j k, j < (5 : ℤ).toNat →
      ((listX [(c5F0 5 0).1, (c5F1 5 5).1] (5 : ℤ).toNat).getD j []).getD k 0
        = ([(c5F0 5 0).1, (c5F1 5 5).1].getD k []).getD j 0) ∧
    (∀ d0 rest f0,
      [(⟨some c5F0, none⟩ : Distribution1D ℕ), ⟨some c5F1, none⟩] = d0 :: rest →
      d0.rvs = some f0 → ∀ j, j < (5 : ℤ).toNat →
      ((listX [(c5F0 5 0).1, (c5F1 5 5).1] (5 : ℤ).toNat).getD j []).getD 0 0
        = ((f0 (5 : ℤ).toNat c5State.random_state).1).getD j 0) ∧
    (∀ d0 d1 rest f0 f1,
      [(⟨some c5F0, none⟩ : Distribution1D ℕ), ⟨some c5F1, none⟩] = d0 :: d1 :: rest →
      d0.rvs = some f0 → d1.rvs = some f1 → ∀ j, j < (5 : ℤ).toNat →
      ((listX [(c5F0 5 0).1, (c5F1 5 5).1] (5 : ℤ).toNat).getD j []).getD 1 0
        = ((f1 (5 : ℤ).toNat (f0 (5 : ℤ).toNat c5State.random_state).2).1).getD j 0) :=
  run_list1d_columns c5State [⟨some c5F0, none⟩, ⟨some c5F1, none⟩] rfl rfl 5 (by decide)
    [(c5F0 5 0).1, (c5F1 5 5).1] 10 rfl

/-- C5 (counterexample): with two concrete distributions sharing the one
mutable random state, entry (0, 1) of the assembled array is 105 — distribution
1's first draw from the advanced state — whereas standalone sampling of
distribution 1 with the same seed starts at 100; the two differ. -/
theorem run_list1d_column1_not_same_seed :
    sampleEntry (MonteCarloSampling_run c5State 5 none).1 0 1 = 105 ∧
    ((c5F1 5 0).1).getD 0 0 = 100 ∧
    sampleEntry (MonteCarloSampling_run c5State 5 none).1 0 1 ≠ ((c5F1 5 0).1).getD 0 0 := by
  refine ⟨by decide, by decide, by decide⟩

/-- Counting occurrences inside a flatMap, summand by summand. -/
lemma count_flatMap_eq (f : ℕ → List (ℕ × ℕ)) (b : ℕ × ℕ) :
    ∀ l : List ℕ, ((l.flatMap f).count b) = (l.map (fun a => (f a).count b)).sum := by
  intro l
  induction l with
  | nil => simp
  | cons a t ih => simp [List.flatMap_cons, List.count_append, ih]

/-- Counting a pair inside one inner list of the combination enumeration. -/
lemma count_pair_map (fixed i j : ℕ) (l : List ℕ) :
    ((l.map (fun y => (fixed, y))).count (i, j)) = if fixed = i then l.count j else 0 := by
  induction l with
  | nil => simp
  | cons a t ih =>
    by_cases hi : fixed = i
    · subst hi
      by_cases ha : a = j
      · subst ha
        simp [List.count_cons, ih]
      · simp [List.count_cons, ih, ha]
    · simp [List.count_cons, ih, hi]

/-- Summing an indicator over a duplicate-free list that contains its index. -/
lemma sum_map_single (i c : ℕ) :
    ∀ l : List ℕ, l.Nodup → i ∈ l → (l.map (fun a => if a = i then c else 0)).sum = c := by
  intro l
  induction l with
  | nil => intro _ h; cases h
  | cons a t ih =>
    intro hnd hmem
    rcases List.mem_cons.mp hmem with rfl | hmem'
    · have hz : (t.map (fun b => if b = i then c else 0)).sum = 0 := by
        apply List.sum_eq_zero
        intro x hx
        obtain ⟨b, hb, rfl⟩ := List.mem_map.mp hx
        have hba : b ≠ i := fun hba => (List.nodup_cons.mp hnd).1 (hba ▸ hb)
        simp [hba]
      simp [hz]
    · have ha : a ≠ i := fun hai => (List.nodup_cons.mp hnd).1 (hai ▸ hmem')
      simp [ha, ih (List.nodup_cons.mp hnd).2 hmem']

/-- Every pair enumerated by combinations-with-replacement is sorted. -/
lemma pairsWithReplacement_sorted (n : ℕ) : ∀ q ∈ pairsWithReplacement n, q.1 ≤ q.2 := by
  intro q hq
  unfold pairsWithReplacement at hq
  rw [List.mem_flatMap] at hq
  obtain ⟨i, hi, hq2⟩ := hq
  rw [List.mem_map] at hq2
  obtain ⟨j, hj, rfl⟩ := hq2
  exact (List.mem_range'_1.mp hj).1

/-- Every sorted in-range pair is enumerated. -/
lemma pairsWithReplacement_mem (n i j : ℕ) (hij : i ≤ j) (hj : j < n) :
    (i, j) ∈ pairsWithReplacement n := by
  unfold pairsWithReplacement
  rw [List.mem_flatMap]
  refine ⟨i, List.mem_range.mpr (lt_of_le_of_lt hij hj), ?_⟩
  rw [List.mem_map]
  exact ⟨j, List.mem_range'_1.mpr ⟨hij, by omega⟩, rfl⟩

/-- Every sorted in-range pair is enumerated exactly once. -/
lemma pairsWithReplacement_count (n i j : ℕ) (hij : i ≤ j) (hj : j < n) :
    (pairsWithReplacement n).count (i, j) = 1 := by
  unfold pairsWithReplacement
  rw [count_flatMap_eq]
  have hmapeq : (List.range n).map
        (fun x => ((List.range' x (n - x)).map (fun y => (x, y))).count (i, j))
      = (List.range n).map (fun x => if x = i then 1 else 0) := by
    apply List.map_congr_left
    intro x hx
    rw [count_pair_map]
    by_cases hxi : x = i
    · subst hxi
      rw [if_pos rfl, if_pos rfl]
      exact List.count_eq_one_of_mem (List.nodup_range' _ _)
        (List.mem_range'_1.mpr ⟨hij, by omega⟩)
    · rw [if_neg hxi, if_neg hxi]
  rw [hmapeq]
  exact sum_map_single i 1 (List.range n) (List.nodup_range _)
    (List.mem_range.mpr (by omega))

/-- Evaluating the two assignments of the pair-loop body at an arbitrary
matrix position. -/
lemma writePair_eval (entry : ℕ → ℕ → ℚ) (M : ℕ → ℕ → ℚ) (q : ℕ × ℕ) (x y : ℕ) :
    writePair entry M q x y
      = if (x = q.2 ∧ y = q.1) ∨ (x = q.1 ∧ y = q.2) then entry q.1 q.2 else M x y := by
  unfold writePair matrixSet
  by_cases ha : x = q.2 ∧ y = q.1
  · simp [ha]
  · by_cases hb : x = q.1 ∧ y = q.2 <;> simp [ha, hb]

/-- The pair loop writes each position exactly according to the unique sorted
pair covering it: after folding over any list of sorted pairs, position (x, y)
holds entry(min x y, max x y) if that sorted pair occurs in the list, and the
initial value otherwise. -/
lemma foldl_writePair_eq (entry : ℕ → ℕ → ℚ) :
    ∀ (l : List (ℕ × ℕ)), (∀ q ∈ l, q.1 ≤ q.2) → ∀ (M : ℕ → ℕ → ℚ) (x y : ℕ),
      (l.foldl (writePair entry) M) x y
        = if (min x y, max x y) ∈ l then entry (min x y) (max x y) else M x y := by
  intro l
  induction l with
  | nil =>
    intro _ M x y
    simp
  | cons hd t ih =>
    intro hle M x y
    rw [List.foldl_cons, ih (fun q hq => hle q (List.mem_cons_of_mem hd hq))]
    have hd12 : hd.1 ≤ hd.2 := hle hd (List.mem_cons_self hd t)
    by_cases hmem : (min x y, max x y) ∈ t
    · rw [if_pos hmem, if_pos (List.mem_cons_of_mem hd hmem)]
    · rw [if_neg hmem]
      by_cases hhd : (min x y, max x y) = hd
      · rw [if_pos (by rw [← hhd]; exact List.mem_cons_self _ _), writePair_eval]
        have h1 : min x y = hd.1 := by rw [← hhd]
        have h2 : max x y = hd.2 := by rw [← hhd]
        rw [if_pos (by omega), ← h1, ← h2]
      · rw [if_neg (by
          rw [List.mem_cons]
          push_neg
          exact ⟨hhd, hmem⟩), writePair_eval]
        have hne : ¬ (min x y = hd.1 ∧ max x y = hd.2) :=
          fun hc => hhd (Prod.ext hc.1 hc.2)
        rw [if_neg (by
          rintro (⟨rfl, rfl⟩ | ⟨rfl, rfl⟩) <;> exact hne (by constructor <;> omega))]

/-- C9: the kernel matrix returned by calculate_kernel_matrix is symmetric —
position (i, j) with i ≤ j and its mirror both hold the entry computed for the
sorted pair, the diagonal holds entry(i, i) computed directly, and each
unordered pair appears exactly once in the loop's pair enumeration (the
mirrored position is filled by copying, never recomputed). -/
theorem calculate_kernel_matrix_symmetric
    (kernel_entry : GrassmannPoint → GrassmannPoint → ℚ)
    (points : List GrassmannPoint) (p : Option ℕ) :
    (∀ a b, calculate_kernel_matrix kernel_entry points p a b
        = calculate_kernel_matrix kernel_entry points p b a) ∧
    (∀ i j, i ≤ j → j < points.length →
      calculate_kernel_matrix kernel_entry points p i j
          = pairEntry kernel_entry points p i j ∧
      calculate_kernel_matrix kernel_entry points p j i
          = pairEntry kernel_entry points p i j) ∧
    (∀ i, i < points.length →
      calculate_kernel_matrix kernel_entry points p i i
          = pairEntry kernel_entry points p i i) ∧
    (∀ i j, i ≤ j → j < points.length →
      (pairsWithReplacement points.length).count (i, j) = 1) := by
  have hcalc : ∀ x y, calculate_kernel_matrix kernel_entry points p x y
      = if (min x y, max x y) ∈ pairsWithReplacement points.length
        then pairEntry kernel_entry points p (min x y) (max x y) else 0 :=
    fun x y => foldl_writePair_eq (pairEntry kernel_entry points p)
      (pairsWithReplacement points.length) (pairsWithReplacement_sorted points.length)
      (fun _ _ => 0) x y
  have hmain : ∀ i j, i ≤ j → j < points.length →
      calculate_kernel_matrix kernel_entry points p i j
          = pairEntry kernel_entry points p i j ∧
      calculate_kernel_matrix kernel_entry points p j i
          = pairEntry kernel_entry points p i j := by
    intro i j hij hj
    constructor
    · rw [hcalc i j, min_eq_left hij, max_eq_right hij,
        if_pos (pairsWithReplacement_mem points.length i j hij hj)]
    · rw [hcalc j i, min_eq_right hij, max_eq_left hij,
        if_pos (pairsWithReplacement_mem points.length i j hij hj)]
  refine ⟨?_, hmain, fun i hi => (hmain i i le_rfl hi).1,
    fun i j hij hj => pairsWithReplacement_count points.length i j hij hj⟩
  intro a b
  rw [hcalc a b, hcalc b a, min_comm b a, max_comm b a]

/-- Witness for the kernel-matrix symmetry theorem on three concrete points. -/
theorem calculate_kernel_matrix_symmetric_witness :
    calculate_kernel_matrix c9Entry c9Points none 0 1 = pairEntry c9Entry c9Points none 0 1 ∧
    calculate_kernel_matrix c9Entry c9Points none 1 0 = pairEntry c9Entry c9Points none 0 1 ∧
    (pairsWithReplacement c9Points.length).count (0, 1) = 1 :=
  ⟨((calculate_kernel_matrix_symmetric c9Entry c9Points none).2.1 0 1 (by decide) (by decide)).1,
   ((calculate_kernel_matrix_symmetric c9Entry c9Points none).2.1 0 1 (by decide) (by decide)).2,
   (calculate_kernel_matrix_symmetric c9Entry c9Points none).2.2.2 0 1 (by decide) (by decide)⟩

end UQpy
